import Mathlib

/-!
Verification of the repository's context-management core and of the
profile-analysis script `analyze_profile.py`.

The context core (task-tree resolver, context compiler, budgeted packer)
is described by the design document but its code is not present in the
source tree, so the definitions in namespace `ContextCore` are modelled
from the spec's algorithm descriptions.  The definitions in namespace
`AnalyzeProfile` are a direct shallow embedding of `src/analyze_profile.py`.

Text is modelled as `List Char`; all definitions are computable and total.
-/

/-- Text is a list of characters. -/
abbrev Text := List Char

/-- Stable insertion (descending by `key`): the new element goes in front
of every later element whose key is not larger, so equal keys keep their
original relative order. -/
def insertDesc (key : α → Nat) (a : α) : List α → List α
  | [] => [a]
  | b :: bs => if key a < key b then b :: insertDesc key a bs else a :: b :: bs

/-- Stable sort by descending `key` (insertion sort). -/
def sortDesc (key : α → Nat) : List α → List α
  | [] => []
  | a :: as' => insertDesc key a (sortDesc key as')

namespace ContextCore

/-- Whitespace characters recognised when deciding whether a section body
is blank. -/
def isWs (c : Char) : Bool := c = ' ' || c = '\n' || c = '\t' || c = '\r'

/-- A text is whitespace-only (the empty text counts as whitespace-only). -/
def wsOnly (cs : Text) : Bool := cs.all isWs

/-- Modelled from the spec: the fixed blank-line separator used to join
surviving sections in phase 3 of the packer. -/
def sep : Text := ['\n', '\n']

/-- Modelled from the spec: the truncation marker appended to content cut
by phase 2 of the packer.  Its exact characters are not fixed by the spec;
any non-whitespace marker behaves the same. -/
def truncMarker : Text := ['.', '.', '.']

/-- Modelled from the spec: a memory section, the unit the packer operates
on.  Its `size` is the length of `content`, which the embedding computes
on demand instead of storing. -/
structure MemorySection where
  name : Text
  priority : Nat
  content : Text
deriving DecidableEq, Repr

/-- A section's size: the character length of its content. -/
def sizeOfSec (s : MemorySection) : Nat := s.content.length

/-- Combined size of a working set of sections. -/
def totalSize (ss : List MemorySection) : Nat := (ss.map sizeOfSec).sum

/-- A section is critical when its priority reaches the fixed threshold 80. -/
def crit (s : MemorySection) : Bool := decide (80 ≤ s.priority)

/-- Combined size of the critical (priority ≥ 80) sections. -/
def critSize (ss : List MemorySection) : Nat := totalSize (ss.filter crit)

/-- Lowest priority present in a working set, if any. -/
def minPrio : List MemorySection → Option Nat
  | [] => none
  | s :: ss =>
    match minPrio ss with
    | none => some s.priority
    | some m => some (min s.priority m)

/-- Remove the first element satisfying `p` (and nothing else). -/
def removeFirst (p : MemorySection → Bool) : List MemorySection → List MemorySection
  | [] => []
  | s :: ss => if p s then ss else s :: removeFirst p ss

/-- Modelled from the spec, phase 1 (priority eviction): while the total
size exceeds the budget, evict the lowest-priority section as long as its
priority is below the critical threshold 80; stop once the lowest
remaining priority is at or above the threshold.  The fuel argument is
instantiated with the list length, which bounds the number of evictions. -/
def evictLoop (budget : Int) : Nat → List MemorySection → List MemorySection
  | 0, ss => ss
  | n + 1, ss =>
    if budget < (totalSize ss : Int) then
      match minPrio ss with
      | none => ss
      | some m =>
        if m < 80 then
          evictLoop budget n (removeFirst (fun t => t.priority == m) ss)
        else ss
    else ss

/-- Phase 1 entry point. -/
def phase1 (budget : Int) (ss : List MemorySection) : List MemorySection :=
  evictLoop budget ss.length ss

/-- Modelled from the spec: the allowed length for a surviving section in
phase 2, `floor(size * (budget / total) * 0.9)`, computed in exact integer
arithmetic; a non-positive budget allows nothing. -/
def allowedLen (budget : Int) (total : Nat) (size : Nat) : Nat :=
  if budget ≤ 0 then 0 else size * budget.toNat * 9 / (total * 10)

/-- Index of the last newline in a text, if any. -/
def lastNewlinePos : Text → Option Nat
  | [] => none
  | c :: cs =>
    match lastNewlinePos cs with
    | some i => some (i + 1)
    | none => if c = '\n' then some 0 else none

/-- Modelled from the spec, the phase-2 cut: content longer than the
allowed length is cut at the allowed length, moved back to the nearest
newline boundary past the midpoint of the allowed length when one exists,
and the truncation marker is appended. -/
def truncContent (allowed : Nat) (cs : Text) : Text :=
  if cs.length ≤ allowed then cs
  else
    let cut := cs.take allowed
    let cut2 :=
      match lastNewlinePos cut with
      | some i => if allowed / 2 < i then cs.take i else cut
      | none => cut
    cut2 ++ truncMarker

/-- One section truncated to its allowed length for the given budget and
surviving total. -/
def truncSec (budget : Int) (total : Nat) (s : MemorySection) : MemorySection :=
  ⟨s.name, s.priority, truncContent (allowedLen budget total (sizeOfSec s)) s.content⟩

/-- Modelled from the spec, phase 2 (proportional truncation): when the
surviving total still exceeds the budget, every section is truncated to
its allowed length. -/
def phase2 (budget : Int) (ss : List MemorySection) : List MemorySection :=
  if (totalSize ss : Int) ≤ budget then ss
  else ss.map (truncSec budget (totalSize ss))

/-- Join texts with the fixed blank-line separator. -/
def joinParts : List Text → Text
  | [] => []
  | [c] => c
  | c :: cs => c ++ sep ++ joinParts cs

/-- Modelled from the spec, phase 3 (assembly): sort the survivors by
descending priority (stable, so equal priorities keep their original
order), drop empty or whitespace-only contents, and join the rest with
the blank-line separator. -/
def phase3 (ss : List MemorySection) : Text :=
  joinParts (((sortDesc (fun s => s.priority) ss).map (fun s => s.content)).filter
    (fun c => !wsOnly c))

/-- Modelled from the spec: the budgeted packer,
`pack (sections, budget) = assembly (truncation (eviction sections))`. -/
def pack (ss : List MemorySection) (budget : Int) : Text :=
  phase3 (phase2 budget (phase1 budget ss))

/-- Modelled from the spec: a node of the task tree.  The completion and
blocked indicators are stored as the booleans derived at reading time
(explicit flag set, or the status text matching "complete" / "blocked"
case-insensitively). -/
structure WorkItem where
  id : Text
  name : Text
  description : Text
  completed : Bool
  blocked : Bool
  children : List WorkItem

/-- An item qualifies as a current task when it is neither completed nor
blocked (the leaf test is separate). -/
def qual (w : WorkItem) : Bool := !w.completed && !w.blocked

mutual

/-- The leaves of one item's subtree in depth-first, children-first,
pre-order: an item with no children is itself a leaf, a container yields
the leaves of its children in order. -/
def leavesItem : WorkItem → List WorkItem
  | ⟨i, nm, ds, c, b, children⟩ =>
    match children with
    | [] => [⟨i, nm, ds, c, b, children⟩]
    | x :: xs => leavesItem x ++ leavesList xs

/-- The leaves of a forest in depth-first, children-first, pre-order. -/
def leavesList : List WorkItem → List WorkItem
  | [] => []
  | w :: ws => leavesItem w ++ leavesList ws

end

mutual

/-- Modelled from the spec, resolver step 2 on one item: recurse into the
children first and return the first qualifying descendant; only when none
qualifies (or there are no children) does the item check itself, and it is
returned only when it is a leaf that is neither completed nor blocked. -/
def firstLeafItem : WorkItem → Option WorkItem
  | ⟨i, nm, ds, c, b, children⟩ =>
    match firstLeafList children with
    | some r => some r
    | none =>
      if children.isEmpty && qual ⟨i, nm, ds, c, b, children⟩ then
        some ⟨i, nm, ds, c, b, children⟩
      else none

/-- Modelled from the spec, resolver step 2: depth-first, children-first
traversal of a forest. -/
def firstLeafList : List WorkItem → Option WorkItem
  | [] => none
  | w :: ws =>
    match firstLeafItem w with
    | some r => some r
    | none => firstLeafList ws

end

mutual

/-- Modelled from the spec, resolver step 1 on one item: depth-first
pre-order search (check the node itself, then its children in order). -/
def findByIdItem (pid : Text) : WorkItem → Option WorkItem
  | ⟨i, nm, ds, c, b, children⟩ =>
    if i = pid then some ⟨i, nm, ds, c, b, children⟩
    else findByIdList pid children

/-- Modelled from the spec, resolver step 1 on a forest. -/
def findByIdList (pid : Text) : List WorkItem → Option WorkItem
  | [] => none
  | w :: ws =>
    match findByIdItem pid w with
    | some r => some r
    | none => findByIdList pid ws

end

/-- Modelled from the spec: the task-tree resolver.  A pinned item is
returned only when it is found and neither completed nor blocked;
otherwise the depth-first search of `firstLeafList` decides. -/
def resolve (ts : List WorkItem) (pinned : Option Text) : Option WorkItem :=
  match pinned with
  | some pid =>
    match findByIdList pid ts with
    | some w => if qual w then some w else firstLeafList ts
    | none => firstLeafList ts
  | none => firstLeafList ts

mutual

/-- One item's contribution to the progress counts `(leaves, completed
leaves)`: a leaf counts itself, a container contributes only the sum over
its children. -/
def countItem : WorkItem → Nat × Nat
  | ⟨_, _, _, c, _, children⟩ =>
    match children with
    | [] => (1, if c then 1 else 0)
    | x :: xs =>
      let a := countItem x
      let b := count_tasks xs
      (a.1 + b.1, a.2 + b.2)

/-- Modelled from the spec: progress counting, `(leaves, completed
leaves)` summed over a forest. -/
def count_tasks : List WorkItem → Nat × Nat
  | [] => (0, 0)
  | w :: ws =>
    let a := countItem w
    let b := count_tasks ws
    (a.1 + b.1, a.2 + b.2)

end

/-- Modelled from the spec: raw, possibly malformed input to the resolver
(nested records as they come from the external store). -/
inductive Raw where
  | null
  | boolV (b : Bool)
  | num (n : Int)
  | str (s : Text)
  | arr (xs : List Raw)
  | obj (fields : List (Text × Raw))

/-- First value stored under a key in a raw record. -/
def lookupField (k : Text) : List (Text × Raw) → Option Raw
  | [] => none
  | (k', v) :: fs => if k' = k then some v else lookupField k fs

/-- Read a boolean flag from a raw record; anything that is not a boolean
counts as an unset flag. -/
def boolField (fs : List (Text × Raw)) (k : Text) : Bool :=
  match lookupField k fs with
  | some (Raw.boolV b) => b
  | _ => false

/-- Read a text field from a raw record; anything that is not a string
reads as empty text. -/
def strField (fs : List (Text × Raw)) (k : Text) : Text :=
  match lookupField k fs with
  | some (Raw.str s) => s
  | _ => []

/-- Case-insensitive comparison uses lower-cased text. -/
def lowerText (s : Text) : Text := s.map Char.toLower

def kId : Text := ['i', 'd']
def kName : Text := ['n', 'a', 'm', 'e']
def kDescription : Text := ['d', 'e', 's', 'c', 'r', 'i', 'p', 't', 'i', 'o', 'n']
def kCompleted : Text := ['c', 'o', 'm', 'p', 'l', 'e', 't', 'e', 'd']
def kBlocked : Text := ['b', 'l', 'o', 'c', 'k', 'e', 'd']
def kStatus : Text := ['s', 't', 'a', 't', 'u', 's']
def kChildren : Text := ['c', 'h', 'i', 'l', 'd', 'r', 'e', 'n']
def kComplete : Text := ['c', 'o', 'm', 'p', 'l', 'e', 't', 'e']

/-- Modelled from the spec: completion is an explicit flag or a status text
that case-insensitively equals "complete". -/
def completedOf (fs : List (Text × Raw)) : Bool :=
  boolField fs kCompleted || decide (lowerText (strField fs kStatus) = kComplete)

/-- Modelled from the spec: blocked is an explicit flag or a status text
that case-insensitively equals "blocked". -/
def blockedOf (fs : List (Text × Raw)) : Bool :=
  boolField fs kBlocked || decide (lowerText (strField fs kStatus) = kBlocked)

mutual

/-- Modelled from the spec: reading one raw node.  Only a record is a
structurally valid work item; every other shape is treated as absent. -/
def toItem? : Raw → Option WorkItem
  | Raw.obj fs =>
    some ⟨strField fs kId, strField fs kName, strField fs kDescription,
      completedOf fs, blockedOf fs, childrenOfFields fs⟩
  | _ => none

/-- The children of a raw record: the first `children` field, read as a
list of nodes; a missing or non-list field means no children. -/
def childrenOfFields : List (Text × Raw) → List WorkItem
  | [] => []
  | (k, v) :: fs => if k = kChildren then childrenOfRaw v else childrenOfFields fs

/-- A raw child list: structurally invalid entries are skipped. -/
def childrenOfRaw : Raw → List WorkItem
  | Raw.arr xs => itemsOfList xs
  | _ => []

/-- Read a list of raw nodes, dropping the structurally invalid ones. -/
def itemsOfList : List Raw → List WorkItem
  | [] => []
  | x :: xs =>
    match toItem? x with
    | some w => w :: itemsOfList xs
    | none => itemsOfList xs

end

/-- Modelled from the spec: reading a whole raw task tree.  The tree is a
list of nodes; a completely unreadable tree (anything that is not a list)
reads as the empty forest. -/
def readTree : Raw → List WorkItem
  | Raw.arr xs => itemsOfList xs
  | _ => []

/-- The resolver on raw input: read the tree, then resolve. -/
def resolveRaw (r : Raw) (pinned : Option Text) : Option WorkItem :=
  resolve (readTree r) pinned

/-- Progress counting on raw input: read the tree, then count. -/
def countRaw (r : Raw) : Nat × Nat :=
  count_tasks (readTree r)

/-- The section `s` appears in the output text `out`: some non-empty piece
that is either `s`'s full content or a truncation of it (a prefix of the
content followed by the truncation marker) occurs contiguously in `out`. -/
def appearsIn (s : MemorySection) (out : Text) : Prop :=
  ∃ c pre post, c ≠ [] ∧
    (c = s.content ∨ ∃ k, c = s.content.take k ++ truncMarker) ∧
    out = pre ++ c ++ post

/-! ### Concrete fixtures used to instantiate the theorems -/

/-- A completed leaf (the spec's scenario item `t1.1`). -/
def wLeafDone : WorkItem := ⟨['t', '1', '.', '1'], [], [], true, false, []⟩

/-- A pending leaf (the spec's scenario item `t1.2`). -/
def wLeafOpen : WorkItem := ⟨['t', '1', '.', '2'], [], [], false, false, []⟩

/-- A container item holding the two leaves. -/
def wRoot : WorkItem := ⟨['t', '1'], [], [], false, false, [wLeafDone, wLeafOpen]⟩

/-- The spec's scenario B task tree. -/
def demoTree : List WorkItem := [wRoot]

/-- A one-character critical header section. -/
def secHeader : MemorySection := ⟨['h'], 100, ['a']⟩

/-- A one-character current-task section. -/
def secTask : MemorySection := ⟨['t'], 90, ['b']⟩

/-- A critical section whose content is a single blank. -/
def secBlank : MemorySection := ⟨['c'], 80, [' ']⟩

/-- Two critical sections whose combined size equals the budget 2. -/
def demoPair : List MemorySection := [secHeader, secTask]

/-- A critical pair where one content is whitespace-only. -/
def demoWs : List MemorySection := [secHeader, secBlank]

end ContextCore

namespace AnalyzeProfile

/-- One profile thread, as `analyze_profile.py` reads it: the samples'
stack indices (`samples['stack']`, possibly `None` entries), the
`stackTable`'s `frame` column, the `frameTable`'s `func` column and the
`funcTable`'s `name` column (indices into the shared string array). -/
structure Thread where
  name : Text
  sample_stacks : List (Option Nat)
  stack_frame : List Nat
  frame_func : List Nat
  func_names : List Nat
deriving DecidableEq, Repr

/-- The function name a sample contributes to, following the guarded index
chain of the per-sample loop: stack index → frame index → function index →
string-array index.  Every guard that fails makes the sample contribute
nothing. -/
def sampleName (strings : List Text) (t : Thread) : Option Nat → Option Text
  | none => none
  | some stack_idx =>
    if stack_idx < t.stack_frame.length then
      if t.stack_frame.getD stack_idx 0 < t.frame_func.length then
        if t.frame_func.getD (t.stack_frame.getD stack_idx 0) 0 < t.func_names.length then
          if t.func_names.getD (t.frame_func.getD (t.stack_frame.getD stack_idx 0) 0) 0
              < strings.length then
            some (strings.getD
              (t.func_names.getD (t.frame_func.getD (t.stack_frame.getD stack_idx 0) 0) 0) [])
          else none
        else none
      else none
    else none

/-- `defaultdict(int)` increment, keeping first-insertion order: an
existing key's count grows by one, a new key is appended with count one. -/
def bump : List (Text × Nat) → Text → List (Text × Nat)
  | [], k => [(k, 1)]
  | (k', c) :: rest, k =>
    if k' = k then (k', c + 1) :: rest else (k', c) :: bump rest k

/-- The per-sample counting loop of `analyze_profile.py`. -/
def countLoop (strings : List Text) (t : Thread) :
    List (Text × Nat) → List (Option Nat) → List (Text × Nat)
  | acc, [] => acc
  | acc, s :: rest =>
    match sampleName strings t s with
    | some nm => countLoop strings t (bump acc nm) rest
    | none => countLoop strings t acc rest

/-- `self_counts`: samples per function (self time = top of stack). -/
def self_counts (strings : List Text) (t : Thread) : List (Text × Nat) :=
  countLoop strings t [] t.sample_stacks

/-- Total number of counted samples across all recorded functions. -/
def sumCounts (l : List (Text × Nat)) : Nat := (l.map (fun p => p.2)).sum

/-- `sorted_funcs`: the counts sorted by descending count
(`sorted(..., key=lambda x: -x[1])`, which is a stable sort). -/
def sorted_funcs (strings : List Text) (t : Thread) : List (Text × Nat) :=
  sortDesc (fun p => p.2) (self_counts strings t)

/-- What the script prints for one thread: the sample total and the top 30
functions (names clipped to 90 characters).  Percentages and line
formatting are elided; the selection and its order are modelled. -/
structure ThreadReport where
  total_samples : Nat
  top : List (Text × Nat)
deriving DecidableEq, Repr

/-- A thread's printed report: a thread with fewer than 100 sample entries
is skipped entirely (`continue`), otherwise the 30 largest self-time
counts are printed in sorted order. -/
def threadReport (strings : List Text) (t : Thread) : Option ThreadReport :=
  if t.sample_stacks.length < 100 then none
  else some ⟨t.sample_stacks.length,
    ((sorted_funcs strings t).take 30).map (fun p => (p.1.take 90, p.2))⟩

/-! ### Concrete fixtures used to instantiate the theorems -/

/-- A one-entry shared string array. -/
def demoStrings : List Text := [['f']]

/-- A thread with 100 valid samples, all landing in the same function. -/
def demoThread : Thread := ⟨['T'], List.replicate 100 (some 0), [0], [0], [0]⟩

/-- A thread with a single sample (below the 100-sample cut-off). -/
def smallThread : Thread := ⟨['T'], [some 0], [0], [0], [0]⟩

end AnalyzeProfile

/-! ### Resolver lemmas -/

namespace ContextCore

theorem leaves_children_nil (ts : List WorkItem) :
    ∀ w' ∈ leavesList ts, w'.children = [] := by
  refine leavesList.induct (fun w => ∀ w' ∈ leavesItem w, w'.children = [])
    (fun ts => ∀ w' ∈ leavesList ts, w'.children = []) ?_ ?_ ?_ ?_ ts
  · intro i nm ds c b w' hw'
    simp [leavesItem] at hw'
    subst hw'
    rfl
  · intro i nm ds c b x xs ih1 ih2 w' hw'
    simp [leavesItem] at hw'
    rcases hw' with h | h
    · exact ih1 w' h
    · exact ih2 w' h
  · intro w' hw'
    simp [leavesList] at hw'
  · intro w ws ih1 ih2 w' hw'
    simp [leavesList] at hw'
    rcases hw' with h | h
    · exact ih1 w' h
    · exact ih2 w' h

theorem firstLeaf_eq_find (ts : List WorkItem) :
    firstLeafList ts = (leavesList ts).find? qual := by
  refine firstLeafList.induct (fun w => firstLeafItem w = (leavesItem w).find? qual)
    (fun ts => firstLeafList ts = (leavesList ts).find? qual) ?_ ?_ ?_ ?_ ?_ ?_ ts
  · intro i nm ds c b children r hr ih
    cases children with
    | nil => simp [firstLeafList] at hr
    | cons x xs =>
      simp only [firstLeafItem, hr, leavesItem]
      rw [show leavesItem x ++ leavesList xs = leavesList (x :: xs) from (by simp [leavesList]),
        ← ih, hr]
  · intro i nm ds c b children hr hq ih
    rcases List.isEmpty_iff.mp (Bool.and_elim_left hq) with rfl
    simp only [firstLeafItem, hr, leavesItem, List.find?_cons]
    simp [Bool.and_elim_right hq]
  · intro i nm ds c b children hr hq ih
    cases children with
    | nil =>
      simp only [List.isEmpty_nil, Bool.true_and] at hq
      simp only [firstLeafItem, hr, leavesItem, List.find?_cons]
      simp [Bool.not_eq_true] at hq
      simp [hq]
    | cons x xs =>
      simp only [firstLeafItem, hr, leavesItem]
      rw [show leavesItem x ++ leavesList xs = leavesList (x :: xs) from (by simp [leavesList]),
        ← ih, hr]
      simp
  · simp [firstLeafList, leavesList]
  · intro x xs r hr ih
    simp only [firstLeafList, hr, leavesList, List.find?_append, ← ih, hr]
    rfl
  · intro x xs hr ih1 ih2
    simp only [firstLeafList, hr, leavesList, List.find?_append, ← ih1, hr, ih2]
    rfl

theorem firstLeaf_some_qual {ts : List WorkItem} {r : WorkItem}
    (h : firstLeafList ts = some r) : qual r = true := by
  rw [firstLeaf_eq_find] at h
  exact List.find?_some h

end ContextCore

namespace ContextCore

/-- C3: in every task tree that contains at least one leaf which is
neither completed nor blocked, `resolve` with no pinned id returns a leaf
(an item with no children, never a container) that is neither completed
nor blocked, and that leaf is the first qualifying leaf of the
depth-first, children-first, pre-order traversal (the first qualifying
entry of `leavesList`). -/
theorem resolve_noPin_first_leaf (ts : List WorkItem)
    (h : ∃ w ∈ leavesList ts, qual w = true) :
    ∃ w, resolve ts none = some w ∧ w.children = [] ∧ qual w = true ∧
      (leavesList ts).find? qual = some w := by
  have hs : ((leavesList ts).find? qual).isSome = true := List.find?_isSome.mpr h
  rcases Option.isSome_iff_exists.mp hs with ⟨w, hw⟩
  refine ⟨w, ?_, ?_, ?_, hw⟩
  · show firstLeafList ts = some w
    rw [firstLeaf_eq_find]
    exact hw
  · exact leaves_children_nil ts w (List.mem_of_find?_eq_some hw)
  · exact List.find?_some hw

/-- Witness for C3 at the spec's scenario B tree. -/
theorem resolve_noPin_first_leaf_witness :
    ∃ w, resolve demoTree none = some w ∧ w.children = [] ∧ qual w = true ∧
      (leavesList demoTree).find? qual = some w :=
  resolve_noPin_first_leaf demoTree
    ⟨wLeafOpen, by simp [show leavesList demoTree = [wLeafDone, wLeafOpen] from rfl], rfl⟩

/-- C4: whenever the pinned id names an item that is completed or blocked,
`resolve` falls back to the depth-first search and never returns the
pinned item. -/
theorem resolve_pinned_finished (ts : List WorkItem) (pid : Text) (w : WorkItem)
    (hf : findByIdList pid ts = some w)
    (hw : w.completed = true ∨ w.blocked = true) :
    resolve ts (some pid) = firstLeafList ts ∧ resolve ts (some pid) ≠ some w := by
  have hq : qual w = false := by
    rcases hw with h | h <;> simp [qual, h]
  constructor
  · simp [resolve, hf, hq]
  · intro hr
    simp [resolve, hf, hq] at hr
    have hqr := firstLeaf_some_qual hr
    simp [hq] at hqr

/-- Witness for C4 at the spec's scenario C: the pinned item `t1.1` is
completed, so the fallback search answers and the pinned item is not
returned. -/
theorem resolve_pinned_finished_witness :
    resolve demoTree (some ['t', '1', '.', '1']) = firstLeafList demoTree ∧
      resolve demoTree (some ['t', '1', '.', '1']) ≠ some wLeafDone :=
  resolve_pinned_finished demoTree ['t', '1', '.', '1'] wLeafDone rfl (Or.inl rfl)

/-- C5: progress counting is compositional — the counts of a forest are
the sums of the counts of the top-level subtrees — and a container item
contributes only the sum of its children's counts (for both the leaf
total and the completed-leaf total), never a unit of its own. -/
theorem count_tasks_compositional (ts : List WorkItem) :
    (count_tasks ts).1 = (ts.map (fun w => (countItem w).1)).sum ∧
    (count_tasks ts).2 = (ts.map (fun w => (countItem w).2)).sum ∧
    ∀ w : WorkItem, w.children ≠ [] → countItem w = count_tasks w.children := by
  refine ⟨?_, ?_, ?_⟩
  · induction ts with
    | nil => simp [count_tasks]
    | cons w ws ih => simp [count_tasks, ih]
  · induction ts with
    | nil => simp [count_tasks]
    | cons w ws ih => simp [count_tasks, ih]
  · intro w hw
    obtain ⟨i, nm, ds, c, b, children⟩ := w
    cases children with
    | nil => simp at hw
    | cons x xs => simp [countItem, count_tasks]

/-- Witness for C5 at the scenario B tree, whose root is a container. -/
theorem count_tasks_compositional_witness :
    (count_tasks demoTree).1 = (demoTree.map (fun w => (countItem w).1)).sum ∧
      countItem wRoot = count_tasks wRoot.children :=
  ⟨(count_tasks_compositional demoTree).1,
    (count_tasks_compositional demoTree).2.2 wRoot
      (by simp [show wRoot.children = [wLeafDone, wLeafOpen] from rfl])⟩

/-- C7 (spec-modelled): the core is embedded as total functions, so no
input makes it raise; moreover it degrades gracefully — a structurally
invalid node (any raw value that is not a record) is treated as absent
for traversal, and a completely unreadable tree (any raw value that is
not a list) yields an empty resolve result and zero/zero counts. -/
theorem core_malformed_graceful (r : Raw) (pinned : Option Text) (x : Raw) (xs : List Raw) :
    ((∀ ys : List Raw, r ≠ Raw.arr ys) →
      resolveRaw r pinned = none ∧ countRaw r = (0, 0)) ∧
    (toItem? x = none →
      resolveRaw (Raw.arr (x :: xs)) pinned = resolveRaw (Raw.arr xs) pinned ∧
        countRaw (Raw.arr (x :: xs)) = countRaw (Raw.arr xs)) := by
  constructor
  · intro hr
    have ht : readTree r = [] := by
      cases r
      case arr ys => exact absurd rfl (hr ys)
      all_goals rfl
    rw [resolveRaw, countRaw, ht]
    cases pinned <;> simp [resolve, findByIdList, firstLeafList, count_tasks]
  · intro hx
    have ht : readTree (Raw.arr (x :: xs)) = readTree (Raw.arr xs) := by
      simp [readTree, itemsOfList, hx]
    rw [resolveRaw, resolveRaw, countRaw, countRaw, ht]
    exact ⟨rfl, rfl⟩

/-- Witness for C7: a bare string is an unreadable tree; a `null` entry in
a node list is skipped. -/
theorem core_malformed_graceful_witness :
    (resolveRaw (Raw.str ['x']) none = none ∧ countRaw (Raw.str ['x']) = (0, 0)) ∧
      (resolveRaw (Raw.arr [Raw.null]) none = resolveRaw (Raw.arr []) none ∧
        countRaw (Raw.arr [Raw.null]) = countRaw (Raw.arr [])) :=
  ⟨(core_malformed_graceful (Raw.str ['x']) none Raw.null []).1
      (fun _ h => Raw.noConfusion h),
    (core_malformed_graceful (Raw.str ['x']) none Raw.null []).2 rfl⟩

end ContextCore

/-! ### Generic lemmas about the stable descending insertion sort -/

theorem mem_insertDesc (key : α → Nat) (a x : α) (l : List α) :
    x ∈ insertDesc key a l ↔ x = a ∨ x ∈ l := by
  induction l with
  | nil => simp [insertDesc]
  | cons b bs ih =>
    by_cases h : key a < key b
    · simp only [insertDesc, if_pos h, List.mem_cons, ih]
      tauto
    · simp only [insertDesc, if_neg h, List.mem_cons]

theorem pairwise_insertDesc (key : α → Nat) (a : α) (l : List α)
    (hl : List.Pairwise (fun x y => key y ≤ key x) l) :
    List.Pairwise (fun x y => key y ≤ key x) (insertDesc key a l) := by
  induction l with
  | nil => simp [insertDesc]
  | cons b bs ih =>
    rcases List.pairwise_cons.mp hl with ⟨hb, hbs⟩
    by_cases h : key a < key b
    · simp only [insertDesc, if_pos h]
      refine List.pairwise_cons.mpr ⟨?_, ih hbs⟩
      intro y hy
      rcases (mem_insertDesc key a y bs).mp hy with rfl | hy
      · omega
      · exact hb y hy
    · simp only [insertDesc, if_neg h]
      refine List.pairwise_cons.mpr ⟨?_, hl⟩
      intro y hy
      rcases List.mem_cons.mp hy with rfl | hy
      · omega
      · have := hb y hy
        omega

theorem pairwise_sortDesc (key : α → Nat) (l : List α) :
    List.Pairwise (fun x y => key y ≤ key x) (sortDesc key l) := by
  induction l with
  | nil => simp [sortDesc]
  | cons a as' ih => exact pairwise_insertDesc key a _ ih

theorem mem_sortDesc (key : α → Nat) (x : α) (l : List α) :
    x ∈ sortDesc key l ↔ x ∈ l := by
  induction l with
  | nil => simp [sortDesc]
  | cons a as' ih =>
    simp [sortDesc, mem_insertDesc, ih]

/-! ### Lemmas about the profile counting loop -/

namespace AnalyzeProfile

theorem bump_pos (acc : List (Text × Nat)) (k : Text)
    (h : ∀ p ∈ acc, 0 < p.2) : ∀ p ∈ bump acc k, 0 < p.2 := by
  induction acc with
  | nil =>
    intro p hp
    simp [bump] at hp
    simp [hp]
  | cons q rest ih =>
    intro p hp
    obtain ⟨k', c⟩ := q
    by_cases hk : k' = k
    · simp [bump, hk] at hp
      rcases hp with rfl | hp
      · simp
      · exact h p (List.mem_cons_of_mem _ hp)
    · simp only [bump, if_neg hk] at hp
      rcases List.mem_cons.mp hp with rfl | hp
      · exact h _ (List.mem_cons_self _ _)
      · exact ih (fun q hq => h q (List.mem_cons_of_mem _ hq)) p hp

theorem bump_sum (acc : List (Text × Nat)) (k : Text) :
    sumCounts (bump acc k) = sumCounts acc + 1 := by
  induction acc with
  | nil => simp [bump, sumCounts]
  | cons q rest ih =>
    obtain ⟨k', c⟩ := q
    by_cases hk : k' = k
    · simp [bump, hk, sumCounts]
      omega
    · simp only [bump, if_neg hk]
      simp [sumCounts] at ih ⊢
      omega

theorem countLoop_pos (strings : List Text) (t : Thread)
    (samples : List (Option Nat)) :
    ∀ acc, (∀ p ∈ acc, 0 < p.2) →
      ∀ p ∈ countLoop strings t acc samples, 0 < p.2 := by
  induction samples with
  | nil =>
    intro acc h
    simpa [countLoop] using h
  | cons s rest ih =>
    intro acc h
    cases hs : sampleName strings t s with
    | none =>
      simp only [countLoop, hs]
      exact ih acc h
    | some nm =>
      simp only [countLoop, hs]
      exact ih (bump acc nm) (bump_pos acc nm h)

theorem countLoop_sum (strings : List Text) (t : Thread)
    (samples : List (Option Nat)) :
    ∀ acc, sumCounts (countLoop strings t acc samples)
      = sumCounts acc + samples.countP (fun s => (sampleName strings t s).isSome) := by
  induction samples with
  | nil =>
    intro acc
    simp [countLoop]
  | cons s rest ih =>
    intro acc
    cases hs : sampleName strings t s with
    | none =>
      simp only [countLoop, hs]
      rw [ih acc, List.countP_cons]
      simp [hs]
    | some nm =>
      simp only [countLoop, hs]
      rw [ih (bump acc nm), bump_sum, List.countP_cons]
      simp [hs]
      omega

end AnalyzeProfile

namespace AnalyzeProfile

/-- C8: the per-sample self-time counting loop never raises (the
embedding is total) and a sample whose stack index is `None`, or whose
stack, frame, function, or string-name index fails its bounds check
against the corresponding table's length, contributes no count: the loop
state is unchanged and the loop proceeds with the remaining samples. -/
theorem sample_guard_skips (strings : List Text) (t : Thread)
    (acc : List (Text × Nat)) (rest : List (Option Nat)) (s : Option Nat)
    (h : s = none ∨ ∃ si, s = some si ∧
      (t.stack_frame.length ≤ si ∨
        t.frame_func.length ≤ t.stack_frame.getD si 0 ∨
        t.func_names.length ≤ t.frame_func.getD (t.stack_frame.getD si 0) 0 ∨
        strings.length ≤
          t.func_names.getD (t.frame_func.getD (t.stack_frame.getD si 0) 0) 0)) :
    countLoop strings t acc (s :: rest) = countLoop strings t acc rest := by
  have hn : sampleName strings t s = none := by
    rcases h with rfl | ⟨si, rfl, hb⟩
    · rfl
    · simp only [sampleName]
      split_ifs with h1 h2 h3 h4
      · exfalso
        rcases hb with hb | hb | hb | hb <;> omega
      all_goals rfl
  simp only [countLoop, hn]

/-- Witness for C8: a sample with stack index 5 fails the bounds check
against a one-entry stack table and leaves the loop state unchanged. -/
theorem sample_guard_skips_witness :
    countLoop demoStrings smallThread [] (some 5 :: []) =
      countLoop demoStrings smallThread [] [] :=
  sample_guard_skips demoStrings smallThread [] [] (some 5)
    (Or.inr ⟨5, rfl, Or.inl (by decide)⟩)

/-- C9: after the counting loop, every function recorded in `self_counts`
has a strictly positive count, and the total of all counts equals the
number of samples that passed every guard — in particular it is at most
the number of entries in the thread's sample stack list (each sample
increments exactly one count by one or increments nothing). -/
theorem self_counts_pos_and_bounded (strings : List Text) (t : Thread) :
    (∀ p ∈ self_counts strings t, 0 < p.2) ∧
    sumCounts (self_counts strings t)
      = t.sample_stacks.countP (fun s => (sampleName strings t s).isSome) ∧
    sumCounts (self_counts strings t) ≤ t.sample_stacks.length := by
  refine ⟨?_, ?_, ?_⟩
  · exact countLoop_pos strings t t.sample_stacks [] (by simp)
  · have h := countLoop_sum strings t t.sample_stacks []
    simpa [self_counts, sumCounts] using h
  · have h := countLoop_sum strings t t.sample_stacks []
    simp only [self_counts]
    rw [h]
    simp [sumCounts]
    exact List.countP_le_length _

/-- C10: a thread whose sample stack list has at least 100 entries is
reported with at most 30 functions, listed in non-increasing order of
their self-time counts; a thread with fewer than 100 sample entries
produces no report at all. -/
theorem threadReport_top30_sorted (strings : List Text) (t : Thread) :
    (100 ≤ t.sample_stacks.length →
      ∃ r, threadReport strings t = some r ∧ r.top.length ≤ 30 ∧
        List.Pairwise (fun a b => b.2 ≤ a.2) r.top) ∧
    (t.sample_stacks.length < 100 → threadReport strings t = none) := by
  constructor
  · intro h
    have hlt : ¬t.sample_stacks.length < 100 := by omega
    refine ⟨⟨t.sample_stacks.length,
        ((sorted_funcs strings t).take 30).map (fun p => (p.1.take 90, p.2))⟩,
      by simp only [threadReport, if_neg hlt], ?_, ?_⟩
    · simp only [List.length_map]
      exact List.length_take_le _ _
    · rw [List.pairwise_map]
      refine List.Pairwise.sublist (List.take_sublist _ _) ?_
      exact pairwise_sortDesc (fun p => p.2) (self_counts strings t)
  · intro h
    simp only [threadReport, if_pos h]

/-- Witness for C10: a 100-sample thread yields a sorted report of at most
30 functions; a 1-sample thread yields nothing. -/
theorem threadReport_top30_sorted_witness :
    (∃ r, threadReport demoStrings demoThread = some r ∧ r.top.length ≤ 30 ∧
      List.Pairwise (fun a b => b.2 ≤ a.2) r.top) ∧
    threadReport demoStrings smallThread = none :=
  ⟨(threadReport_top30_sorted demoStrings demoThread).1 (by decide),
    (threadReport_top30_sorted demoStrings smallThread).2 (by decide)⟩

end AnalyzeProfile

/-! ### Packer lemmas: phase 1 (eviction) -/

namespace ContextCore

theorem minPrio_none {ss : List MemorySection} (h : minPrio ss = none) : ss = [] := by
  cases ss with
  | nil => rfl
  | cons a as =>
    exfalso
    cases ha : minPrio as <;> simp [minPrio, ha] at h

theorem minPrio_le {ss : List MemorySection} {m : Nat} (h : minPrio ss = some m) :
    ∀ s ∈ ss, m ≤ s.priority := by
  induction ss generalizing m with
  | nil => simp [minPrio] at h
  | cons a as ih =>
    intro s hs
    rcases List.mem_cons.mp hs with rfl | hs
    · cases ha : minPrio as with
      | none => simp [minPrio, ha] at h; omega
      | some m' => simp [minPrio, ha] at h; omega
    · cases ha : minPrio as with
      | none =>
        rcases minPrio_none ha with rfl
        simp at hs
      | some m' =>
        have := ih ha s hs
        simp [minPrio, ha] at h
        omega

theorem minPrio_mem {ss : List MemorySection} {m : Nat} (h : minPrio ss = some m) :
    ∃ s ∈ ss, s.priority = m := by
  induction ss generalizing m with
  | nil => simp [minPrio] at h
  | cons a as ih =>
    cases ha : minPrio as with
    | none =>
      simp [minPrio, ha] at h
      refine ⟨a, List.mem_cons_self _ _, ?_⟩
      omega
    | some m' =>
      simp [minPrio, ha] at h
      by_cases hle : a.priority ≤ m'
      · refine ⟨a, List.mem_cons_self _ _, ?_⟩
        omega
      · rcases ih ha with ⟨s, hs, hsp⟩
        refine ⟨s, List.mem_cons_of_mem _ hs, ?_⟩
        omega

theorem mem_removeFirst_of_neg {p : MemorySection → Bool} {s : MemorySection}
    {ss : List MemorySection} (hm : s ∈ ss) (hp : p s = false) :
    s ∈ removeFirst p ss := by
  induction ss with
  | nil => simp at hm
  | cons a as ih =>
    rcases List.mem_cons.mp hm with rfl | hm
    · simp [removeFirst, hp]
    · by_cases ha : p a = true
      · simpa [removeFirst, ha] using hm
      · simp only [removeFirst, if_neg ha]
        exact List.mem_cons_of_mem _ (ih hm)

theorem filter_removeFirst {p q : MemorySection → Bool}
    (hpq : ∀ x, p x = true → q x = false) (ss : List MemorySection) :
    (removeFirst p ss).filter q = ss.filter q := by
  induction ss with
  | nil => rfl
  | cons a as ih =>
    by_cases ha : p a = true
    · simp [removeFirst, ha, List.filter_cons, hpq a ha]
    · simp only [removeFirst, if_neg ha, List.filter_cons, ih]

theorem length_removeFirst_of_mem {p : MemorySection → Bool} {ss : List MemorySection}
    (h : ∃ x ∈ ss, p x = true) :
    (removeFirst p ss).length + 1 = ss.length := by
  induction ss with
  | nil => simp at h
  | cons a as ih =>
    by_cases ha : p a = true
    · simp [removeFirst, ha]
    · rcases h with ⟨x, hx, hpx⟩
      rcases List.mem_cons.mp hx with rfl | hx
      · simp_all
      · simp only [removeFirst, if_neg ha, List.length_cons]
        rw [← ih ⟨x, hx, hpx⟩]

theorem length_removeFirst_le (p : MemorySection → Bool) (ss : List MemorySection) :
    (removeFirst p ss).length ≤ ss.length := by
  induction ss with
  | nil => simp [removeFirst]
  | cons a as ih =>
    by_cases ha : p a = true
    · simp [removeFirst, ha]
    · simp only [removeFirst, if_neg ha, List.length_cons]
      omega

theorem totalSize_filter_le (q : MemorySection → Bool) (ss : List MemorySection) :
    totalSize (ss.filter q) ≤ totalSize ss :=
  List.Sublist.sum_le_sum (List.Sublist.map sizeOfSec (List.filter_sublist ss))
    (fun a _ => Nat.zero_le a)

end ContextCore

namespace ContextCore

theorem evictLoop_keeps_crit (b : Int) (n : Nat) :
    ∀ ss : List MemorySection, ∀ s ∈ ss, crit s = true → s ∈ evictLoop b n ss := by
  induction n with
  | zero =>
    intro ss s hs _
    simpa [evictLoop] using hs
  | succ n ih =>
    intro ss s hs hc
    by_cases hb : b < (totalSize ss : Int)
    · simp only [evictLoop, if_pos hb]
      cases hm : minPrio ss with
      | none => exact hs
      | some m =>
        by_cases h80 : m < 80
        · simp only [if_pos h80]
          apply ih
          · apply mem_removeFirst_of_neg hs
            simp only [crit, decide_eq_true_eq] at hc
            show (s.priority == m) = false
            rw [beq_eq_false_iff_ne]
            omega
          · exact hc
        · simp only [if_neg h80]
          exact hs
    · simp only [evictLoop, if_neg hb]
      exact hs

theorem evictLoop_length_le (b : Int) (n : Nat) :
    ∀ ss : List MemorySection, (evictLoop b n ss).length ≤ ss.length := by
  induction n with
  | zero => intro ss; simp [evictLoop]
  | succ n ih =>
    intro ss
    by_cases hb : b < (totalSize ss : Int)
    · simp only [evictLoop, if_pos hb]
      cases hm : minPrio ss with
      | none => exact Nat.le_refl _
      | some m =>
        by_cases h80 : m < 80
        · simp only [if_pos h80]
          exact Nat.le_trans (ih _) (length_removeFirst_le _ ss)
        · simp only [if_neg h80]
          exact Nat.le_refl _
    · simp only [evictLoop, if_neg hb]
      exact Nat.le_refl _

theorem evictLoop_all_crit (b : Int) (n : Nat) :
    ∀ ss : List MemorySection, ss.length ≤ n → b < (critSize ss : Int) →
      evictLoop b n ss = ss.filter crit := by
  induction n with
  | zero =>
    intro ss hn _
    rcases List.eq_nil_of_length_eq_zero (Nat.eq_zero_of_le_zero hn) with rfl
    rfl
  | succ n ih =>
    intro ss hn hb2
    have hct : critSize ss ≤ totalSize ss := totalSize_filter_le crit ss
    have hb : b < (totalSize ss : Int) := by
      have : (critSize ss : Int) ≤ (totalSize ss : Int) := by exact_mod_cast hct
      omega
    simp only [evictLoop, if_pos hb]
    cases hm : minPrio ss with
    | none =>
      rcases minPrio_none hm with rfl
      rfl
    | some m =>
      by_cases h80 : m < 80
      · simp only [if_pos h80]
        rcases minPrio_mem hm with ⟨x, hx, hxp⟩
        have hex : ∃ y ∈ ss, (fun t => t.priority == m) y = true := by
          refine ⟨x, hx, ?_⟩
          simp [hxp]
        have hlen : (removeFirst (fun t => t.priority == m) ss).length ≤ n := by
          have := length_removeFirst_of_mem hex
          omega
        have hpq : ∀ y : MemorySection, (fun t => t.priority == m) y = true →
            crit y = false := by
          intro y hy
          simp only [beq_iff_eq] at hy
          simp only [crit, decide_eq_false_iff_not]
          omega
        have hfil := filter_removeFirst hpq ss
        have hcs : critSize (removeFirst (fun t => t.priority == m) ss) = critSize ss := by
          simp only [critSize, hfil]
        rw [ih _ hlen (by rw [hcs]; exact hb2), hfil]
      · simp only [if_neg h80]
        have hall : ∀ s ∈ ss, crit s = true := by
          intro s hs
          have := minPrio_le hm s hs
          simp only [crit, decide_eq_true_eq]
          omega
        exact (List.filter_eq_self.mpr hall).symm

theorem evictLoop_total_le (b : Int) (n : Nat) :
    ∀ ss : List MemorySection, ss.length ≤ n → (critSize ss : Int) ≤ b →
      (totalSize (evictLoop b n ss) : Int) ≤ b := by
  induction n with
  | zero =>
    intro ss hn hcrit
    rcases List.eq_nil_of_length_eq_zero (Nat.eq_zero_of_le_zero hn) with rfl
    simpa [evictLoop, totalSize] using hcrit
  | succ n ih =>
    intro ss hn hcrit
    by_cases hb : b < (totalSize ss : Int)
    · simp only [evictLoop, if_pos hb]
      cases hm : minPrio ss with
      | none =>
        rcases minPrio_none hm with rfl
        simpa [totalSize] using hcrit
      | some m =>
        by_cases h80 : m < 80
        · simp only [if_pos h80]
          rcases minPrio_mem hm with ⟨x, hx, hxp⟩
          have hex : ∃ y ∈ ss, (fun t => t.priority == m) y = true := by
            refine ⟨x, hx, ?_⟩
            simp [hxp]
          have hlen : (removeFirst (fun t => t.priority == m) ss).length ≤ n := by
            have := length_removeFirst_of_mem hex
            omega
          have hpq : ∀ y : MemorySection, (fun t => t.priority == m) y = true →
              crit y = false := by
            intro y hy
            simp only [beq_iff_eq] at hy
            simp only [crit, decide_eq_false_iff_not]
            omega
          have hfil := filter_removeFirst hpq ss
          apply ih _ hlen
          simp only [critSize, hfil]
          exact hcrit
        · simp only [if_neg h80]
          have hall : ∀ s ∈ ss, crit s = true := by
            intro s hs
            have := minPrio_le hm s hs
            simp only [crit, decide_eq_true_eq]
            omega
          have : critSize ss = totalSize ss := by
            simp only [critSize, List.filter_eq_self.mpr hall]
          omega
    · simp only [evictLoop, if_neg hb]
      omega

theorem phase1_keeps_crit {ss : List MemorySection} {s : MemorySection} (b : Int)
    (hs : s ∈ ss) (hc : crit s = true) : s ∈ phase1 b ss :=
  evictLoop_keeps_crit b ss.length ss s hs hc

theorem phase1_all_crit {ss : List MemorySection} {b : Int}
    (hb : b < (critSize ss : Int)) : phase1 b ss = ss.filter crit :=
  evictLoop_all_crit b ss.length ss (Nat.le_refl _) hb

theorem phase1_total_le {ss : List MemorySection} {b : Int}
    (hb : (critSize ss : Int) ≤ b) : (totalSize (phase1 b ss) : Int) ≤ b :=
  evictLoop_total_le b ss.length ss (Nat.le_refl _) hb

theorem phase1_length_le (b : Int) (ss : List MemorySection) :
    (phase1 b ss).length ≤ ss.length :=
  evictLoop_length_le b ss.length ss

end ContextCore

/-! ### Packer lemmas: phases 2 and 3 -/

theorem length_insertDesc (key : α → Nat) (a : α) (l : List α) :
    (insertDesc key a l).length = l.length + 1 := by
  induction l with
  | nil => rfl
  | cons b bs ih =>
    by_cases h : key a < key b
    · simp only [insertDesc, if_pos h, List.length_cons, ih]
    · simp [insertDesc, if_neg h]

theorem length_sortDesc (key : α → Nat) (l : List α) :
    (sortDesc key l).length = l.length := by
  induction l with
  | nil => rfl
  | cons a as ih => simp [sortDesc, length_insertDesc, ih]

theorem sum_map_insertDesc (key : α → Nat) (f : α → Nat) (a : α) (l : List α) :
    ((insertDesc key a l).map f).sum = f a + (l.map f).sum := by
  induction l with
  | nil => simp [insertDesc]
  | cons b bs ih =>
    by_cases h : key a < key b
    · simp only [insertDesc, if_pos h, List.map_cons, List.sum_cons, ih]
      omega
    · simp [insertDesc, if_neg h]

theorem sum_map_sortDesc (key : α → Nat) (f : α → Nat) (l : List α) :
    ((sortDesc key l).map f).sum = (l.map f).sum := by
  induction l with
  | nil => rfl
  | cons a as ih => simp [sortDesc, sum_map_insertDesc, ih]

namespace ContextCore

theorem truncContent_shape (a : Nat) (cs : Text) :
    truncContent a cs = cs ∨ ∃ k, truncContent a cs = cs.take k ++ truncMarker := by
  by_cases h : cs.length ≤ a
  · left
    simp [truncContent, h]
  · right
    simp only [truncContent, if_neg h]
    cases hn : lastNewlinePos (cs.take a) with
    | none => exact ⟨a, rfl⟩
    | some i =>
      by_cases hm : a / 2 < i
      · simp only [if_pos hm]
        exact ⟨i, rfl⟩
      · simp only [if_neg hm]
        exact ⟨a, rfl⟩

theorem wsOnly_append_marker (xs : Text) : wsOnly (xs ++ truncMarker) = false := by
  have h : truncMarker.all isWs = false := rfl
  simp [wsOnly, List.all_append, h]

theorem ne_nil_of_not_wsOnly {cs : Text} (h : wsOnly cs = false) : cs ≠ [] := by
  intro hnil
  subst hnil
  simp [wsOnly] at h

theorem joinParts_contains {ps : List Text} {c : Text} (h : c ∈ ps) :
    ∃ pre post, joinParts ps = pre ++ c ++ post := by
  induction ps with
  | nil => simp at h
  | cons x xs ih =>
    rcases List.mem_cons.mp h with rfl | h
    · cases xs with
      | nil => exact ⟨[], [], by simp [joinParts]⟩
      | cons y ys => exact ⟨[], sep ++ joinParts (y :: ys), by simp [joinParts]⟩
    · cases xs with
      | nil => simp at h
      | cons y ys =>
        rcases ih h with ⟨pre, post, hpre⟩
        exact ⟨x ++ sep ++ pre, post, by simp [joinParts, hpre]⟩

theorem joinParts_length_le (ps : List Text) :
    (joinParts ps).length ≤ (ps.map List.length).sum + 2 * (ps.length - 1) := by
  induction ps with
  | nil => simp [joinParts]
  | cons x xs ih =>
    cases xs with
    | nil => simp [joinParts]
    | cons y ys =>
      have hsep : sep.length = 2 := rfl
      simp only [joinParts, List.length_append, List.map_cons, List.sum_cons,
        List.length_cons] at ih ⊢
      omega

theorem phase3_length_le (ss : List MemorySection) :
    (phase3 ss).length ≤ totalSize ss + 2 * (ss.length - 1) := by
  have h1 := joinParts_length_le
    ((((sortDesc (fun s => s.priority) ss).map (fun s => s.content)).filter
      (fun c => !wsOnly c)))
  have h2 : ((((sortDesc (fun s => s.priority) ss).map (fun s => s.content)).filter
        (fun c => !wsOnly c)).map List.length).sum
      ≤ (((sortDesc (fun s => s.priority) ss).map (fun s => s.content)).map
        List.length).sum :=
    List.Sublist.sum_le_sum (List.Sublist.map _ (List.filter_sublist _))
      (fun a _ => Nat.zero_le a)
  have h3 : (((sortDesc (fun s => s.priority) ss).map (fun s => s.content)).map
        List.length).sum = totalSize ss := by
    rw [List.map_map]
    exact sum_map_sortDesc (fun s => s.priority) sizeOfSec ss
  have h4 : ((((sortDesc (fun s => s.priority) ss).map (fun s => s.content)).filter
        (fun c => !wsOnly c))).length ≤ ss.length := by
    calc ((((sortDesc (fun s => s.priority) ss).map (fun s => s.content)).filter
        (fun c => !wsOnly c))).length
        ≤ (((sortDesc (fun s => s.priority) ss).map (fun s => s.content))).length :=
          List.length_filter_le _ _
      _ = (sortDesc (fun s => s.priority) ss).length := List.length_map _ _
      _ = ss.length := length_sortDesc _ _
  show (joinParts _).length ≤ _
  omega

theorem phase2_le {ss : List MemorySection} (b : Int)
    (h : (totalSize ss : Int) ≤ b) : phase2 b ss = ss := by
  simp only [phase2, if_pos h]

theorem phase2_gt {ss : List MemorySection} (b : Int)
    (h : ¬(totalSize ss : Int) ≤ b) :
    phase2 b ss = ss.map (truncSec b (totalSize ss)) := by
  simp only [phase2, if_neg h]

theorem phase3_contains {ss : List MemorySection} {s2 : MemorySection}
    (hm : s2 ∈ ss) (hws : wsOnly s2.content = false) :
    ∃ pre post, phase3 ss = pre ++ s2.content ++ post := by
  apply joinParts_contains
  apply List.mem_filter.mpr
  refine ⟨List.mem_map_of_mem _ ((mem_sortDesc _ _ _).mpr hm), ?_⟩
  simp [hws]

theorem ne_nil_of_append_mid {out pre c post : Text}
    (h : out = pre ++ c ++ post) (hc : c ≠ []) : out ≠ [] := by
  intro h0
  rw [h0] at h
  have := congrArg List.length h
  simp [List.length_append] at this
  exact hc (List.eq_nil_of_length_eq_zero (by omega))

theorem joinParts_not_ws {ps : List Text} (h : ∀ c ∈ ps, wsOnly c = false) :
    joinParts ps = [] ∨ wsOnly (joinParts ps) = false := by
  cases ps with
  | nil => exact Or.inl rfl
  | cons x xs =>
    right
    have hx : wsOnly x = false := h x (List.mem_cons_self _ _)
    cases xs with
    | nil => simpa [joinParts] using hx
    | cons y ys =>
      simp only [joinParts, wsOnly, List.all_append] at hx ⊢
      simp [hx]

theorem pack_empty_or_not_ws (ss : List MemorySection) (b : Int) :
    pack ss b = [] ∨ wsOnly (pack ss b) = false := by
  apply joinParts_not_ws
  intro c hc
  have := (List.mem_filter.mp hc).2
  simpa using this

theorem phase3_single {c : Text} (nm : Text) (pr : Nat) (h : wsOnly c = false) :
    phase3 [⟨nm, pr, c⟩] = c := by
  simp only [phase3, sortDesc, insertDesc, List.map_cons, List.map_nil,
    List.filter_cons, List.filter_nil, h]
  rfl

end ContextCore

namespace ContextCore

/-- C1 counterexample: two critical sections of one character each under
budget 2 — the critical size (2) is within the budget, yet the packed
output is the two contents joined by the blank-line separator, 4 > 2
characters. -/
theorem pack_budget_counterexample :
    (critSize demoPair : Int) ≤ 2 ∧ 2 < ((pack demoPair 2).length : Int) := by
  decide

/-- C1 (corrected): when the combined size of the critical (priority
≥ 80) sections is within the budget, the packed output exceeds the budget
by at most the blank-line separators joining the surviving sections
(2·(#sections − 1) characters) — not by nothing, as the claim stated;
when the critical size exceeds the budget, the output is exactly the
assembly of the truncated critical sections, so it contains no more than
their truncated content plus the separators joining them. -/
theorem pack_budget_soft (ss : List MemorySection) (b : Int) :
    ((critSize ss : Int) ≤ b →
      ((pack ss b).length : Int) ≤ b + 2 * ((ss.length - 1 : Nat) : Int)) ∧
    (b < (critSize ss : Int) →
      pack ss b = phase3 (phase2 b (ss.filter crit))) := by
  constructor
  · intro h
    have h1 : (totalSize (phase1 b ss) : Int) ≤ b := phase1_total_le h
    have h3 : pack ss b = phase3 (phase1 b ss) := by
      rw [pack, phase2_le b h1]
    have h4 := phase3_length_le (phase1 b ss)
    have h5 := phase1_length_le b ss
    rw [h3]
    omega
  · intro h
    rw [pack, phase1_all_crit h]

/-- Witness for C1 at concrete inputs: the pair under budget 100 (critical
size within budget) satisfies the soft bound, and under budget 1 (critical
size 2 exceeds it) packs to exactly the assembled critical sections. -/
theorem pack_budget_soft_witness :
    ((pack demoPair 100).length : Int) ≤ 100 + 2 * ((demoPair.length - 1 : Nat) : Int) ∧
      pack demoPair 1 = phase3 (phase2 1 (demoPair.filter crit)) :=
  ⟨(pack_budget_soft demoPair 100).1 (by decide),
    (pack_budget_soft demoPair 1).2 (by decide)⟩

/-- C2 counterexample: the priority-80 section `secBlank` has non-empty
(one blank character) content, yet it is absent from the non-empty packed
output `['a']` — nothing derived from it appears there. -/
theorem pack_critical_absent_counterexample :
    80 ≤ secBlank.priority ∧ secBlank.content ≠ [] ∧ pack demoWs 100 ≠ [] ∧
      ¬appearsIn secBlank (pack demoWs 100) := by
  refine ⟨by decide, by decide, by decide, ?_⟩
  rintro ⟨c, pre, post, hne, hform, hout⟩
  have hp : pack demoWs 100 = ['a'] := by decide
  rw [hp] at hout
  have hlen := congrArg List.length hout
  simp only [List.length_append, List.length_cons, List.length_nil] at hlen
  have hcpos : 0 < c.length := List.length_pos_of_ne_nil hne
  have hpre : pre.length = 0 := by omega
  have hpost : post.length = 0 := by omega
  rcases List.eq_nil_of_length_eq_zero hpre with rfl
  rcases List.eq_nil_of_length_eq_zero hpost with rfl
  simp only [List.nil_append, List.append_nil] at hout
  rcases hform with rfl | ⟨k, rfl⟩
  · exact absurd hout.symm (by decide)
  · have := congrArg List.length hout
    simp only [List.length_append, List.length_take] at this
    have hm : truncMarker.length = 3 := rfl
    simp only [List.length_cons, List.length_nil] at this
    omega

/-- C2 (corrected): the eviction phase removes only sections of priority
strictly below 80 — every critical section survives phase 1 — and every
critical section whose content is not whitespace-only (the original claim
required only non-empty content; see the counterexample) appears, possibly
truncated, in the non-empty output of `pack`. -/
theorem pack_critical_present (ss : List MemorySection) (b : Int) (s : MemorySection)
    (hm : s ∈ ss) (hc : crit s = true) :
    s ∈ phase1 b ss ∧
    (wsOnly s.content = false → pack ss b ≠ [] ∧ appearsIn s (pack ss b)) := by
  have h1 : s ∈ phase1 b ss := phase1_keeps_crit b hm hc
  refine ⟨h1, fun hws => ?_⟩
  by_cases h2 : (totalSize (phase1 b ss) : Int) ≤ b
  · have hp : pack ss b = phase3 (phase1 b ss) := by
      rw [pack, phase2_le b h2]
    rcases phase3_contains h1 hws with ⟨pre, post, hjoin⟩
    have hout : pack ss b = pre ++ s.content ++ post := by rw [hp, hjoin]
    exact ⟨ne_nil_of_append_mid hout (ne_nil_of_not_wsOnly hws),
      s.content, pre, post, ne_nil_of_not_wsOnly hws, Or.inl rfl, hout⟩
  · have hp : pack ss b = phase3 ((phase1 b ss).map (truncSec b (totalSize (phase1 b ss)))) := by
      rw [pack, phase2_gt b h2]
    have hmem : truncSec b (totalSize (phase1 b ss)) s
        ∈ (phase1 b ss).map (truncSec b (totalSize (phase1 b ss))) :=
      List.mem_map_of_mem _ h1
    have hshape := truncContent_shape
      (allowedLen b (totalSize (phase1 b ss)) (sizeOfSec s)) s.content
    have hcws : wsOnly (truncSec b (totalSize (phase1 b ss)) s).content = false := by
      rcases hshape with hsh | ⟨k, hsh⟩
      · show wsOnly (truncContent _ _) = false
        rw [hsh]
        exact hws
      · show wsOnly (truncContent _ _) = false
        rw [hsh]
        exact wsOnly_append_marker _
    rcases phase3_contains hmem hcws with ⟨pre, post, hjoin⟩
    have hout : pack ss b
        = pre ++ (truncSec b (totalSize (phase1 b ss)) s).content ++ post := by
      rw [hp, hjoin]
    refine ⟨ne_nil_of_append_mid hout (ne_nil_of_not_wsOnly hcws),
      (truncSec b (totalSize (phase1 b ss)) s).content, pre, post,
      ne_nil_of_not_wsOnly hcws, ?_, hout⟩
    rcases hshape with hsh | ⟨k, hsh⟩
    · exact Or.inl hsh
    · exact Or.inr ⟨k, hsh⟩

/-- Witness for C2: the header of the whitespace pair survives eviction
and appears in the non-empty output. -/
theorem pack_critical_present_witness :
    secHeader ∈ phase1 100 demoWs ∧
      (pack demoWs 100 ≠ [] ∧ appearsIn secHeader (pack demoWs 100)) :=
  ⟨(pack_critical_present demoWs 100 secHeader (by decide) (by decide)).1,
    (pack_critical_present demoWs 100 secHeader (by decide) (by decide)).2 (by decide)⟩

/-- C6 counterexample: the pair packed under budget 2 yields a 4-character
output; re-packing that output as a single priority-100 section under the
same budget 2 truncates it, so the result differs from the original. -/
theorem pack_repack_counterexample :
    pack [⟨['p'], 100, pack demoPair 2⟩] 2 ≠ pack demoPair 2 := by
  decide

/-- C6 (corrected): re-packing the packed output, wrapped as a single
priority-100 section, returns it unchanged for every budget at least the
output's length — in particular for the same or any larger budget whenever
the output already fits its budget; when the output exceeds the budget
(soft overrun), re-packing under that budget truncates it (see the
counterexample). -/
theorem pack_repack_fixed (ss : List MemorySection) (b b2 : Int) (nm : Text)
    (h : ((pack ss b).length : Int) ≤ b2) :
    pack [⟨nm, 100, pack ss b⟩] b2 = pack ss b := by
  have htot : totalSize [⟨nm, 100, pack ss b⟩] = (pack ss b).length := by
    simp [totalSize, sizeOfSec]
  have h1 : phase1 b2 [⟨nm, 100, pack ss b⟩] = [⟨nm, 100, pack ss b⟩] := by
    simp only [phase1, List.length_cons, List.length_nil, evictLoop]
    rw [if_neg (by rw [htot]; omega)]
  have h2 : phase2 b2 [⟨nm, 100, pack ss b⟩] = [⟨nm, 100, pack ss b⟩] :=
    phase2_le b2 (by rw [htot]; omega)
  rw [pack, h1, h2]
  rcases pack_empty_or_not_ws ss b with hout | hout
  · rw [hout]
    rfl
  · exact phase3_single nm 100 hout

/-- Witness for C6: a one-section input packs to `['a']`, and re-packing
that output under the same budget returns it unchanged. -/
theorem pack_repack_fixed_witness :
    pack [⟨['p'], 100, pack demoPair 100⟩] 100 = pack demoPair 100 :=
  pack_repack_fixed demoPair 100 100 ['p'] (by decide)

end ContextCore
